import Mathlib

/-!
Verification of the NAS file-index and deduplication core (nas/nas.py).

The Python class `Nas` maintains `image_data`, an in-memory list of file
records, persisted as JSON.  We embed the record type, the remote-share
interaction outcomes, and the index-mutating operations as pure Lean
functions, threading state and recorded side effects explicitly.
-/

/-- One entry of `image_data`: the dict built in `calculate_file_hash`
with keys path, hash, creation_date, size.  Timestamps are modelled as
natural numbers (seconds); `datetime.fromtimestamp` is strictly monotone
on them, so sorting by it coincides with sorting by the raw value. -/
structure FileInfo where
  path : String
  hash : String
  creation_date : Nat
  size : Nat
deriving DecidableEq, Repr

/-- Outcome of one call to `conn.deleteFiles` on the remote share. -/
inductive DeleteOutcome where
  | success
  | valueError
  | operationFailure
deriving DecidableEq, Repr

/-- Python exceptions that can propagate out of the modelled operations. -/
inductive PyError where
  | unboundLocal (name : String)
  | operationFailure
deriving DecidableEq, Repr

/-- Model of `Nas.delete_file`: calls `conn.deleteFiles` and catches only
`ValueError` (which it logs and swallows); an `OperationFailure` raised by
the connection propagates to the caller.  Returns the propagated error,
if any. -/
def delete_file (deleteResult : String → DeleteOutcome) (file_path : String) :
    Option PyError :=
  match deleteResult file_path with
  | .success => none
  | .valueError => none
  | .operationFailure => some .operationFailure

/-- The shared deletion loop of `delete_files_by_size` and
`delete_duplicates`: for each record, call `delete_file` and append the
record to `deleted_files`.  Since `delete_file` swallows `ValueError`
itself, the record is appended whenever the call returns (success or
swallowed `ValueError`); an `OperationFailure` propagates and aborts the
loop.  Returns (paths passed to `conn.deleteFiles`, records appended to
`deleted_files`, propagated error if any). -/
def deleteLoop (deleteResult : String → DeleteOutcome) :
    List FileInfo → List String × List FileInfo × Option PyError
  | [] => ([], [], none)
  | fi :: rest =>
    match deleteResult fi.path with
    | .operationFailure => ([fi.path], [], some .operationFailure)
    | .success =>
      let r := deleteLoop deleteResult rest
      (fi.path :: r.1, fi :: r.2.1, r.2.2)
    | .valueError =>
      let r := deleteLoop deleteResult rest
      (fi.path :: r.1, fi :: r.2.1, r.2.2)

/-- Result of a run of an index-mutating operation: which remote paths
were passed to `conn.deleteFiles`, the in-memory `image_data` afterwards,
what `save_db` persisted (if reached), and the uncaught exception, if one
propagated. -/
structure OpResult where
  remoteDeleteCalls : List String
  image_data : List FileInfo
  saved : Option (List FileInfo)
  error : Option PyError
deriving DecidableEq, Repr

/-- The candidate selection of `delete_files_by_size`:
records with size less than or equal to the limit. -/
def impacted_files (image_data : List FileInfo) (size_limit : Nat) :
    List FileInfo :=
  image_data.filter (fun fi => fi.size ≤ size_limit)

/-- Model of `Nas.delete_files_by_size`.  `confirm` is the confirmation
port (the interactive yes/no prompt): true iff the answer was yes.
When candidates exist and the user declines, the Python code still
executes the line rebuilding `image_data` from `deleted_files`, a local
variable that was only assigned inside the confirmed branch — an
`UnboundLocalError` is raised there and `save_db` is never reached. -/
def delete_files_by_size (deleteResult : String → DeleteOutcome)
    (confirm : Bool) (image_data : List FileInfo) (size_limit : Nat) :
    OpResult :=
  let impacted := impacted_files image_data size_limit
  if impacted.isEmpty then
    ⟨[], image_data, none, none⟩
  else if confirm then
    let r := deleteLoop deleteResult impacted
    match r.2.2 with
    | some e => ⟨r.1, image_data, none, some e⟩
    | none =>
      let deleted_files := r.2.1
      let new_data := image_data.filter (fun fi => !decide (fi ∈ deleted_files))
      ⟨r.1, new_data, some new_data, none⟩
  else
    ⟨[], image_data, none, some (.unboundLocal "deleted_files")⟩

/-- Model of `Nas.list_small_files`: strict comparison, display only. -/
def list_small_files (image_data : List FileInfo) (size_limit : Nat) :
    List FileInfo :=
  image_data.filter (fun fi => fi.size < size_limit)

/-- The in-place sort at the head of `delete_duplicates`.  Python
`list.sort` is stable; `List.insertionSort` with the non-strict key
comparison (flipped for `reverse=True`) is exactly that stable sort.
For a `date_choice` other than older or newer the group is left as is. -/
def sortGroup (date_choice : String) (g : List FileInfo) : List FileInfo :=
  if date_choice = "older" then
    g.insertionSort (fun a b => a.creation_date ≤ b.creation_date)
  else if date_choice = "newer" then
    g.insertionSort (fun a b => b.creation_date ≤ a.creation_date)
  else g

/-- Model of `Nas.delete_duplicates`: sort the group by creation date,
keep the head, run the deletion loop on the tail, drop the records that
reached `deleted_files` from `image_data`, persist.  The handler
`except ValueError` around the loop body is dead code, because
`delete_file` already swallows `ValueError`; an `OperationFailure`
propagates out of the whole method before `image_data` is touched. -/
def delete_duplicates (deleteResult : String → DeleteOutcome)
    (date_choice : String) (image_data : List FileInfo)
    (duplicate_group : List FileInfo) : OpResult :=
  let sorted := sortGroup date_choice duplicate_group
  let files_to_delete := sorted.tail
  let r := deleteLoop deleteResult files_to_delete
  match r.2.2 with
  | some e => ⟨r.1, image_data, none, some e⟩
  | none =>
    let deleted_files := r.2.1
    let new_data := image_data.filter (fun fi => !decide (fi ∈ deleted_files))
    ⟨r.1, new_data, some new_data, none⟩

/-- Model of the insertion-ordered Python dict built by
`find_duplicates_in_db`: an association list from hash to the list of
records carrying it, in first-occurrence order; appending keeps order. -/
def insertHash (m : List (String × List FileInfo)) (h : String)
    (fi : FileInfo) : List (String × List FileInfo) :=
  match m with
  | [] => [(h, [fi])]
  | (k, v) :: rest =>
    if k = h then (k, v ++ [fi]) :: rest else (k, v) :: insertHash rest h fi

/-- Model of `Nas.find_duplicates_in_db`: group `image_data` by hash in an
insertion-ordered map, keep the value lists with more than one member. -/
def find_duplicates_in_db (image_data : List FileInfo) :
    List (List FileInfo) :=
  let hash_map := image_data.foldl (fun m fi => insertHash m fi.hash fi) []
  (hash_map.map Prod.snd).filter (fun files => files.length > 1)

/-- One node of the remote tree below the folder being processed, as the
SMB listing presents it: a plain file with its attributes and byte
content, or a directory with its own listing.  The dot entries are
filtered out by every loop in the source, so they are not modelled.
`listable` records whether listing the directory succeeds or raises
(`OperationFailure` in `list` style calls). -/
inductive NasNode where
  | file (name : String) (create_time : Nat) (content : List Nat)
  | dir (name : String) (listable : Bool) (children : List NasNode)

/-- Model of `os.path.join` for forward-slash paths as the source uses
it: an absolute second component replaces the first; otherwise a single
separator is inserted unless the folder already ends with one. -/
def joinPath (folder name : String) : String :=
  if name.data.head? = some '/' then name
  else if folder.data.getLast? = some '/' then folder ++ name
  else folder ++ "/" ++ name

/-- The depth measure of `traverse_nas_folder`:
`nas_folder_path.count('/') if nas_folder_path != '/' else 0`. -/
def pathDepth (p : String) : Nat :=
  if p = "/" then 0 else p.data.count '/'

/-- The guard `max_depth is not None and current_depth > max_depth`. -/
def depthExceeded (max_depth : Option Nat) (p : String) : Bool :=
  match max_depth with
  | some d => decide (pathDepth p > d)
  | none => false

mutual
/-- Model of `Nas.traverse_nas_folder` on the directory at
`nas_folder_path` whose listing is `children` (with `listable` false when
`conn.listPath` raises there).  The broad `except Exception` around the
listing and the loop means a failed listing just yields the empty list
for that call. -/
def traverse_nas_folder (item_type : String) (max_depth : Option Nat)
    (nas_folder_path : String) (listable : Bool) (children : List NasNode) :
    List String :=
  if depthExceeded max_depth nas_folder_path then []
  else if listable then
    traverseItems item_type max_depth nas_folder_path children
  else []

/-- The body of the listing loop of `traverse_nas_folder`: directories
are appended (for folders/both) and recursed into, files are appended
(for files/both). -/
def traverseItems (item_type : String) (max_depth : Option Nat)
    (nas_folder_path : String) : List NasNode → List String
  | [] => []
  | .file name _ _ :: rest =>
    (if item_type = "files" ∨ item_type = "both"
      then [joinPath nas_folder_path name] else [])
    ++ traverseItems item_type max_depth nas_folder_path rest
  | .dir name l cs :: rest =>
    (if item_type = "folders" ∨ item_type = "both"
      then [joinPath nas_folder_path name] else [])
    ++ traverse_nas_folder item_type max_depth (joinPath nas_folder_path name) l cs
    ++ traverseItems item_type max_depth nas_folder_path rest
end

mutual
/-- Model of `Nas.recursive_hashes` at one entry of a listing, against
the fixed in-memory index `image_data` (the walk appends to the separate
`temp_image_data`, so lookups always hit the index as it was when
`update_db` started).  For a file, if a record with the exact joined path
exists in `image_data` the first such record is carried forward with no
hash computation; otherwise the Content Hasher `md5` runs on the
retrieved bytes and a fresh record is built from the listing attributes.
For a directory the walk recurses; there is no exception handler here,
so an unlistable directory propagates the failure (`none`).
Returns (records appended to `temp_image_data`, paths the hasher ran on). -/
def hashNode (md5 : List Nat → String) (image_data : List FileInfo)
    (folder : String) : NasNode → Option (List FileInfo × List String)
  | .file name create_time content =>
    let file_path := joinPath folder name
    match image_data.find? (fun item => item.path = file_path) with
    | some existing_file_info => some ([existing_file_info], [])
    | none =>
      some ([⟨file_path, md5 content, create_time, content.length⟩], [file_path])
  | .dir name listable children =>
    if listable then recursive_hashes md5 image_data (joinPath folder name) children
    else none

/-- The loop of `recursive_hashes` over one listing, concatenating the
records in walk order. -/
def recursive_hashes (md5 : List Nat → String) (image_data : List FileInfo)
    (folder : String) : List NasNode → Option (List FileInfo × List String)
  | [] => some ([], [])
  | e :: rest =>
    match hashNode md5 image_data folder e with
    | none => none
    | some a =>
      match recursive_hashes md5 image_data folder rest with
      | none => none
      | some b => some (a.1 ++ b.1, a.2 ++ b.2)
end

/-- Model of `Nas.update_db`: clear `temp_image_data`, walk the tree with
`recursive_hashes`, replace `image_data` by the accumulated records and
persist them with `save_db`.  Returns the new index (also the persisted
list) together with the paths the Content Hasher was invoked on, or
`none` when a listing failure propagated (then `image_data` is untouched
and nothing is saved).  The `tree` argument is the listing of
`nas_folder_path`, whose own listing is assumed to succeed. -/
def update_db (md5 : List Nat → String) (image_data : List FileInfo)
    (nas_folder_path : String) (tree : List NasNode) :
    Option (List FileInfo × List String) :=
  recursive_hashes md5 image_data nas_folder_path tree

mutual
/-- File paths of the tree in walk order, as `recursive_hashes` visits
them (one entry). -/
def filePathsNode (folder : String) : NasNode → List String
  | .file name _ _ => [joinPath folder name]
  | .dir name _ children => filePathsNodes (joinPath folder name) children

/-- File paths of the tree in walk order (a listing). -/
def filePathsNodes (folder : String) : List NasNode → List String
  | [] => []
  | e :: rest => filePathsNode folder e ++ filePathsNodes folder rest
end

mutual
/-- Whether every directory in the node can be listed. -/
def allListableNode : NasNode → Bool
  | .file _ _ _ => true
  | .dir _ listable children => listable && allListableNodes children

/-- Whether every directory in the listing can be listed. -/
def allListableNodes : List NasNode → Bool
  | [] => true
  | e :: rest => allListableNode e && allListableNodes rest
end

/-- Outcome of `Nas.load_db` against the backing JSON file: the file does
not exist, it exists but parsing raises `ValueError`, or it parses to a
record list. -/
inductive LoadOutcome where
  | missing
  | parseError
  | loaded (records : List FileInfo)

/-- Model of `Nas.load_db`: when the file is missing it returns false
before touching `image_data`; otherwise `image_data` is cleared and, on a
successful parse, replaced by the loaded records.  Returns the boolean
result together with `image_data` afterwards. -/
def load_db (outcome : LoadOutcome) (image_data : List FileInfo) :
    Bool × List FileInfo :=
  match outcome with
  | .missing => (false, image_data)
  | .parseError => (false, [])
  | .loaded records => (true, records)

/-- Whether `load_db` reports success. -/
def loadSucceeds : LoadOutcome → Bool
  | .loaded _ => true
  | _ => false

/-- Model of the index-selection prelude of `Nas.cleanup_nas_images`:
`if self.load_db() or update_db: self.update_db(...)`.  Returns the index
the subsequent duplicate and size operations read, paired with whether
the rebuild ran; `none` when the rebuild raised (the whole method then
aborts before those operations). -/
def cleanup_index (md5 : List Nat → String) (outcome : LoadOutcome)
    (updateFlag : Bool) (image_data : List FileInfo)
    (nas_folder_path : String) (tree : List NasNode) :
    Option (List FileInfo × Bool) :=
  let r := load_db outcome image_data
  if r.1 || updateFlag then
    (update_db md5 r.2 nas_folder_path tree).map (fun u => (u.1, true))
  else
    some (r.2, false)

/-- One file of the local directory being synced. -/
structure LocalFile where
  name : String
  content : List Nat
deriving DecidableEq, Repr

/-- Effects of a run of the sync loop: which remote files were written
(`storeFile` calls into the target folder, identified by file name since
all writes go to `new_folder_path/filename`) and which local files were
removed with `os.remove`. -/
structure SyncResult where
  stores : List (String × List Nat)
  localRemoved : List String
deriving DecidableEq, Repr

/-- Model of the per-file loop of `Nas.copy_files_to_nas_photos_library`
over the local directory listing.  `existing_filenames` is the remote
target folder's listing, retrieved once before the loop.  For each local
file: if `delete_small_images` and its size is under 10000 bytes it is
deleted locally and skipped; else if a remote file of the same name
exists it is skipped entirely; else its bytes are streamed to the remote
target and, when `move_files` is set, the local file is removed.  The
surrounding folder creation, the final `os.rmdir` (which only removes an
empty directory, never a file) and the closing `update_db` perform no
remote file write and no local file removal, so they are not modelled. -/
def copy_files_to_nas_photos_library (local_files : List LocalFile)
    (existing_filenames : List String) (delete_small_images move_files : Bool) :
    SyncResult :=
  match local_files with
  | [] => ⟨[], []⟩
  | f :: rest =>
    let r := copy_files_to_nas_photos_library rest existing_filenames
      delete_small_images move_files
    if delete_small_images && decide (f.content.length < 10000) then
      ⟨r.stores, f.name :: r.localRemoved⟩
    else if f.name ∈ existing_filenames then
      r
    else
      ⟨(f.name, f.content) :: r.stores,
        if move_files then f.name :: r.localRemoved else r.localRemoved⟩

theorem deleteLoop_success (dr : String → DeleteOutcome) :
    ∀ files : List FileInfo, (∀ fi ∈ files, dr fi.path = .success) →
      deleteLoop dr files = (files.map FileInfo.path, files, none)
  | [], _ => rfl
  | fi :: rest, h => by
    have hfi : dr fi.path = .success := h fi (List.mem_cons_self fi rest)
    have ih := deleteLoop_success dr rest (fun x hx => h x (List.mem_cons_of_mem fi hx))
    simp [deleteLoop, hfi, ih]

/-- C4: the deletion candidate selection of `delete_files_by_size` keeps
exactly the records with size at most the limit (and those are the paths
it deletes on a confirmed, successful run), while `list_small_files`
keeps exactly the records with size strictly below the limit; on sizes
5000, 10000, 15000 with limit 10000 the candidate set has two records and
the listing one. -/
theorem C4_size_filter_boundary :
    (∀ (idx : List FileInfo) (lim : Nat) (fi : FileInfo),
      (fi ∈ impacted_files idx lim ↔ fi ∈ idx ∧ fi.size ≤ lim) ∧
      (fi ∈ list_small_files idx lim ↔ fi ∈ idx ∧ fi.size < lim)) ∧
    (∀ (idx : List FileInfo) (lim : Nat),
      (delete_files_by_size (fun _ => .success) true idx lim).remoteDeleteCalls
        = (impacted_files idx lim).map FileInfo.path) ∧
    (impacted_files
        [⟨"/a", "h1", 0, 5000⟩, ⟨"/b", "h2", 0, 10000⟩, ⟨"/c", "h3", 0, 15000⟩]
        10000).length = 2 ∧
    (list_small_files
        [⟨"/a", "h1", 0, 5000⟩, ⟨"/b", "h2", 0, 10000⟩, ⟨"/c", "h3", 0, 15000⟩]
        10000).length = 1 := by
  refine ⟨fun idx lim fi => ⟨?_, ?_⟩, fun idx lim => ?_, by decide, by decide⟩
  · simp [impacted_files, List.mem_filter]
  · simp [list_small_files, List.mem_filter]
  · have h := deleteLoop_success (fun _ => .success) (impacted_files idx lim)
      (fun _ _ => rfl)
    by_cases hemp : (impacted_files idx lim).isEmpty
    · rw [List.isEmpty_iff] at hemp
      simp [delete_files_by_size, hemp]
    · simp [delete_files_by_size, hemp, h]

/-- C1 (code bug): when the confirmation port returns false,
`delete_files_by_size` makes no remote delete call, leaves the in-memory
index unchanged and persists nothing — but as soon as any candidate
exists it raises `UnboundLocalError` on the unassigned `deleted_files`
local instead of completing cleanly, as shown at the concrete input. -/
theorem C1_declined_confirmation :
    (∀ (dr : String → DeleteOutcome) (idx : List FileInfo) (lim : Nat),
      (delete_files_by_size dr false idx lim).remoteDeleteCalls = [] ∧
      (delete_files_by_size dr false idx lim).image_data = idx ∧
      (delete_files_by_size dr false idx lim).saved = none) ∧
    (delete_files_by_size (fun _ => .success) false
        [⟨"/a", "h", 0, 5000⟩] 10000).error
      = some (.unboundLocal "deleted_files") := by
  constructor
  · intro dr idx lim
    by_cases hemp : (impacted_files idx lim).isEmpty
    · simp [delete_files_by_size, hemp]
    · simp [delete_files_by_size, hemp]
  · decide

/-- C2 (code bug): in `delete_duplicates`, a record whose remote delete
fails with `ValueError` is nonetheless appended to `deleted_files`
(because `delete_file` swallows the exception), so it is removed from the
index and from the persisted form: here the delete of /b fails, yet the
operation reports no error and both the index and the saved list contain
only the /a record. -/
theorem C2_failed_delete_record_vanishes :
    delete_duplicates
        (fun p => if p = "/b" then .valueError else .success) "older"
        [⟨"/a", "H", 100, 5000⟩, ⟨"/b", "H", 200, 6000⟩]
        [⟨"/a", "H", 100, 5000⟩, ⟨"/b", "H", 200, 6000⟩]
      = ⟨["/b"], [⟨"/a", "H", 100, 5000⟩],
          some [⟨"/a", "H", 100, 5000⟩], none⟩ := by
  decide

/-- Hash values in order of first occurrence: the key order of the
insertion-ordered dict of `find_duplicates_in_db`. -/
def firstOccs : List String → List String
  | [] => []
  | h :: rest => h :: (firstOccs rest).filter (fun x => !decide (x = h))

/-- Order-sensitive characterization of the duplicate groups, following
the claim wording, to be compared with `find_duplicates_in_db`: for each
hash value in order of first occurrence in the index, the records of the
index carrying it in index order, keeping only groups with at least two
members. -/
def duplicateGroupsSpec (image_data : List FileInfo) : List (List FileInfo) :=
  ((firstOccs (image_data.map FileInfo.hash)).map
      (fun h => image_data.filter (fun fi => fi.hash = h))).filter
    (fun files => files.length > 1)

theorem mem_firstOccs : ∀ (xs : List String) (a : String),
    a ∈ firstOccs xs ↔ a ∈ xs
  | [], a => Iff.rfl
  | h :: rest, a => by
    by_cases hah : a = h
    · subst hah; simp [firstOccs]
    · simp [firstOccs, List.mem_filter, hah, mem_firstOccs rest a]

theorem firstOccs_nodup : ∀ xs : List String, (firstOccs xs).Nodup
  | [] => List.nodup_nil
  | h :: rest => by
    rw [firstOccs]
    refine List.Nodup.cons ?_ ((firstOccs_nodup rest).filter _)
    intro hmem
    simp [List.mem_filter] at hmem

theorem firstOccs_concat : ∀ (xs : List String) (h : String),
    firstOccs (xs ++ [h]) =
      if h ∈ xs then firstOccs xs else firstOccs xs ++ [h]
  | [], h => by simp [firstOccs]
  | x :: xs, h => by
    rw [List.cons_append, firstOccs, firstOccs_concat xs h, firstOccs]
    by_cases hmem : h ∈ xs
    · simp [hmem, List.mem_cons]
    · by_cases hx : h = x
      · subst hx
        simp [hmem, List.filter_append]
      · simp [hmem, hx, Ne.symm hx, List.mem_cons, List.filter_append]

theorem insertHash_keys (h : String) (fi : FileInfo) :
    ∀ m : List (String × List FileInfo),
      (insertHash m h fi).map Prod.fst =
        if h ∈ m.map Prod.fst then m.map Prod.fst else m.map Prod.fst ++ [h]
  | [] => by simp [insertHash]
  | (k, v) :: rest => by
    by_cases hkh : k = h
    · subst hkh
      simp [insertHash]
    · rw [insertHash]
      simp only [if_neg hkh]
      by_cases hm : h ∈ rest.map Prod.fst <;>
        simp [insertHash_keys h fi rest, hm, Ne.symm hkh, hkh]

theorem insertHash_mem (h : String) (fi : FileInfo) :
    ∀ m : List (String × List FileInfo), (m.map Prod.fst).Nodup →
      ∀ kv ∈ insertHash m h fi,
        (kv.1 ≠ h ∧ kv ∈ m) ∨
        (kv.1 = h ∧ ((h ∉ m.map Prod.fst ∧ kv.2 = [fi]) ∨
          ∃ v, (h, v) ∈ m ∧ kv.2 = v ++ [fi]))
  | [], _, kv, hkv => by
    simp [insertHash] at hkv
    subst hkv
    exact Or.inr ⟨rfl, Or.inl ⟨by simp, rfl⟩⟩
  | (k, v) :: rest, hnd, kv, hkv => by
    rw [List.map_cons, List.nodup_cons] at hnd
    by_cases hkh : k = h
    · subst hkh
      rw [insertHash, if_pos rfl] at hkv
      rcases List.mem_cons.mp hkv with hkv | hkv
      · subst hkv
        exact Or.inr ⟨rfl, Or.inr ⟨v, List.mem_cons_self _ _, rfl⟩⟩
      · refine Or.inl ⟨?_, List.mem_cons_of_mem _ hkv⟩
        intro hkv1
        have hmm : kv.1 ∈ rest.map Prod.fst := List.mem_map_of_mem Prod.fst hkv
        rw [hkv1] at hmm
        exact hnd.1 hmm
    · rw [insertHash, if_neg hkh] at hkv
      rcases List.mem_cons.mp hkv with hkv | hkv
      · subst hkv
        exact Or.inl ⟨hkh, List.mem_cons_self _ _⟩
      · rcases insertHash_mem h fi rest hnd.2 kv hkv with
          ⟨hne, hm⟩ | ⟨heq, ⟨hno, hv⟩ | ⟨w, hw, hv⟩⟩
        · exact Or.inl ⟨hne, List.mem_cons_of_mem _ hm⟩
        · refine Or.inr ⟨heq, Or.inl ⟨?_, hv⟩⟩
          simp [hno, Ne.symm hkh]
        · exact Or.inr ⟨heq, Or.inr ⟨w, List.mem_cons_of_mem _ hw, hv⟩⟩

theorem map_snd_of_values (f : String → List FileInfo) :
    ∀ m : List (String × List FileInfo), (∀ kv ∈ m, kv.2 = f kv.1) →
      m.map Prod.snd = (m.map Prod.fst).map f
  | [], _ => rfl
  | kv :: rest, h => by
    have hkv := h kv (List.mem_cons_self kv rest)
    have ih := map_snd_of_values f rest (fun x hx => h x (List.mem_cons_of_mem kv hx))
    simp [ih, hkv]

theorem buildMap_inv (l : List FileInfo) :
    ((l.foldl (fun m fi => insertHash m fi.hash fi) []).map Prod.fst
        = firstOccs (l.map FileInfo.hash)) ∧
    (∀ kv ∈ l.foldl (fun m fi => insertHash m fi.hash fi) [],
        kv.2 = l.filter (fun fi => fi.hash = kv.1)) := by
  induction l using List.reverseRecOn with
  | nil => exact ⟨rfl, by simp⟩
  | append_singleton l fi ih =>
    have hfold : (l ++ [fi]).foldl (fun m x => insertHash m x.hash x) []
        = insertHash (l.foldl (fun m x => insertHash m x.hash x) []) fi.hash fi := by
      rw [List.foldl_append]
      rfl
    constructor
    · rw [hfold, insertHash_keys, ih.1, List.map_append, List.map_singleton,
        firstOccs_concat]
      by_cases hm : fi.hash ∈ l.map FileInfo.hash
      · rw [if_pos hm, if_pos ((mem_firstOccs _ _).mpr hm)]
      · rw [if_neg hm, if_neg (fun hc => hm ((mem_firstOccs _ _).mp hc))]
    · intro kv hkv
      rw [hfold] at hkv
      have hnd : ((l.foldl (fun m x => insertHash m x.hash x) []).map Prod.fst).Nodup := by
        rw [ih.1]; exact firstOccs_nodup _
      rcases insertHash_mem fi.hash fi _ hnd kv hkv with
        ⟨hne, hm⟩ | ⟨heq, ⟨hno, hv⟩ | ⟨v, hvm, hv⟩⟩
      · rw [ih.2 kv hm, List.filter_append]
        simp [Ne.symm hne]
      · have hnin : fi.hash ∉ l.map FileInfo.hash := by
          rw [ih.1] at hno
          exact fun hc => hno ((mem_firstOccs _ _).mpr hc)
        have hfil : l.filter (fun r => r.hash = fi.hash) = [] := by
          rw [List.filter_eq_nil_iff]
          intro a ha hha
          exact hnin (by
            simp only [decide_eq_true_eq] at hha
            exact hha ▸ List.mem_map_of_mem FileInfo.hash ha)
        rw [hv, List.filter_append, heq, hfil]
        simp
      · have hvval := ih.2 (fi.hash, v) hvm
        rw [hv, List.filter_append, heq, ← hvval]
        simp

/-- C10: `find_duplicates_in_db` preserves index order — each group lists
its records in index order, and the groups appear in first-occurrence
order of their hash — exactly the order-sensitive characterization
`duplicateGroupsSpec`. -/
theorem C10_duplicate_groups_order (l : List FileInfo) :
    find_duplicates_in_db l = duplicateGroupsSpec l := by
  have h := buildMap_inv l
  have h2 := map_snd_of_values (fun x => l.filter (fun fi => fi.hash = x)) _ h.2
  simp only [find_duplicates_in_db, duplicateGroupsSpec, h2, h.1]

/-- The olderWins survivor characterization: m occurs in the group with a
strictly smaller key than everything before it and a key at most that of
everything after it — the earliest-inserted member with minimal key. -/
def IsFirstMinBy (key : FileInfo → Nat) (g : List FileInfo) (m : FileInfo) : Prop :=
  ∃ pre post, g = pre ++ m :: post ∧
    (∀ x ∈ pre, key m < key x) ∧ ∀ x ∈ post, key m ≤ key x

/-- The newerWins survivor characterization: the earliest-inserted member
with maximal key. -/
def IsFirstMaxBy (key : FileInfo → Nat) (g : List FileInfo) (m : FileInfo) : Prop :=
  ∃ pre post, g = pre ++ m :: post ∧
    (∀ x ∈ pre, key x < key m) ∧ ∀ x ∈ post, key x ≤ key m

theorem isFirstMinBy_min (key : FileInfo → Nat) (g : List FileInfo)
    (m : FileInfo) (h : IsFirstMinBy key g m) : ∀ x ∈ g, key m ≤ key x := by
  obtain ⟨pre, post, rfl, hlt, hle⟩ := h
  intro x hx
  rcases List.mem_append.mp hx with hx | hx
  · exact le_of_lt (hlt x hx)
  · rcases List.mem_cons.mp hx with rfl | hx
    · exact le_refl _
    · exact hle x hx

theorem isFirstMaxBy_max (key : FileInfo → Nat) (g : List FileInfo)
    (m : FileInfo) (h : IsFirstMaxBy key g m) : ∀ x ∈ g, key x ≤ key m := by
  obtain ⟨pre, post, rfl, hlt, hle⟩ := h
  intro x hx
  rcases List.mem_append.mp hx with hx | hx
  · exact le_of_lt (hlt x hx)
  · rcases List.mem_cons.mp hx with rfl | hx
    · exact le_refl _
    · exact hle x hx

theorem head_insertionSort_min (key : FileInfo → Nat) :
    ∀ (g : List FileInfo) (m : FileInfo),
      (g.insertionSort (fun a b => key a ≤ key b)).head? = some m →
      IsFirstMinBy key g m
  | [], m => by simp [List.insertionSort]
  | a :: g', m => by
    simp only [List.insertionSort]
    rcases hs : g'.insertionSort (fun a b => key a ≤ key b) with _ | ⟨b, t⟩
    · have hg' : g' = [] := by
        have hlen := List.length_insertionSort (fun a b => key a ≤ key b) g'
        rw [hs] at hlen
        exact List.eq_nil_of_length_eq_zero hlen.symm
      subst hg'
      intro hm
      simp [List.orderedInsert] at hm
      subst hm
      exact ⟨[], [], rfl, by simp, by simp⟩
    · have hb : IsFirstMinBy key g' b :=
        head_insertionSort_min key g' b (by rw [hs]; rfl)
      intro hm
      simp only [List.orderedInsert] at hm
      by_cases hab : key a ≤ key b
      · simp only [hab, if_true, List.head?] at hm
        injection hm with hm
        subst hm
        refine ⟨[], g', rfl, by simp, ?_⟩
        intro x hx
        exact le_trans hab (isFirstMinBy_min key g' b hb x hx)
      · simp only [hab, if_false, List.head?] at hm
        injection hm with hm
        subst hm
        obtain ⟨pre, post, hsplit, hlt, hle⟩ := hb
        refine ⟨a :: pre, post, by simp [hsplit], ?_, hle⟩
        intro x hx
        rcases List.mem_cons.mp hx with rfl | hx
        · exact Nat.lt_of_not_le hab
        · exact hlt x hx

theorem head_insertionSort_max (key : FileInfo → Nat) :
    ∀ (g : List FileInfo) (m : FileInfo),
      (g.insertionSort (fun a b => key b ≤ key a)).head? = some m →
      IsFirstMaxBy key g m
  | [], m => by simp [List.insertionSort]
  | a :: g', m => by
    simp only [List.insertionSort]
    rcases hs : g'.insertionSort (fun a b => key b ≤ key a) with _ | ⟨b, t⟩
    · have hg' : g' = [] := by
        have hlen := List.length_insertionSort (fun a b => key b ≤ key a) g'
        rw [hs] at hlen
        exact List.eq_nil_of_length_eq_zero hlen.symm
      subst hg'
      intro hm
      simp [List.orderedInsert] at hm
      subst hm
      exact ⟨[], [], rfl, by simp, by simp⟩
    · have hb : IsFirstMaxBy key g' b :=
        head_insertionSort_max key g' b (by rw [hs]; rfl)
      intro hm
      simp only [List.orderedInsert] at hm
      by_cases hab : key b ≤ key a
      · simp only [hab, if_true, List.head?] at hm
        injection hm with hm
        subst hm
        refine ⟨[], g', rfl, by simp, ?_⟩
        intro x hx
        exact le_trans (isFirstMaxBy_max key g' b hb x hx) hab
      · simp only [hab, if_false, List.head?] at hm
        injection hm with hm
        subst hm
        obtain ⟨pre, post, hsplit, hlt, hle⟩ := hb
        refine ⟨a :: pre, post, by simp [hsplit], ?_, hle⟩
        intro x hx
        rcases List.mem_cons.mp hx with rfl | hx
        · exact Nat.lt_of_not_le hab
        · exact hlt x hx

theorem sortGroup_perm (dc : String) (g : List FileInfo) :
    List.Perm (sortGroup dc g) g := by
  unfold sortGroup
  split
  · exact List.perm_insertionSort _ g
  · split
    · exact List.perm_insertionSort _ g
    · exact List.Perm.refl g

theorem delete_duplicates_spec (dr : String → DeleteOutcome) (dc : String)
    (idx g : List FileInfo) (m : FileInfo) (t : List FileInfo)
    (hsort : sortGroup dc g = m :: t) (hnd : g.Nodup)
    (hpaths : (g.map FileInfo.path).Nodup)
    (hsucc : ∀ fi ∈ g, dr fi.path = .success) :
    (delete_duplicates dr dc idx g).error = none ∧
    (delete_duplicates dr dc idx g).remoteDeleteCalls = t.map FileInfo.path ∧
    (∀ x ∈ g, (x.path ∈ t.map FileInfo.path ↔ x ≠ m)) ∧
    (delete_duplicates dr dc idx g).image_data
      = idx.filter (fun fi => !decide (fi ∈ g ∧ fi ≠ m)) ∧
    (delete_duplicates dr dc idx g).saved
      = some (idx.filter (fun fi => !decide (fi ∈ g ∧ fi ≠ m))) := by
  have hperm : List.Perm (m :: t) g := by
    rw [← hsort]; exact sortGroup_perm dc g
  have hndmt : (m :: t).Nodup := hperm.symm.nodup hnd
  obtain ⟨hmnott, hndt⟩ := List.nodup_cons.mp hndmt
  have hmem : ∀ x, x ∈ t ↔ (x ∈ g ∧ x ≠ m) := by
    intro x
    constructor
    · intro hx
      exact ⟨hperm.mem_iff.mp (List.mem_cons_of_mem m hx),
        fun he => hmnott (he ▸ hx)⟩
    · rintro ⟨hxg, hxm⟩
      rcases List.mem_cons.mp (hperm.mem_iff.mpr hxg) with he | ht
      · exact absurd he hxm
      · exact ht
  have hloop := deleteLoop_success dr t
    (fun fi hfi => hsucc fi ((hmem fi).mp hfi).1)
  have hdd : delete_duplicates dr dc idx g =
      ⟨t.map FileInfo.path, idx.filter (fun fi => !decide (fi ∈ t)),
        some (idx.filter (fun fi => !decide (fi ∈ t))), none⟩ := by
    unfold delete_duplicates
    rw [hsort]
    simp [hloop]
  have hfeq : idx.filter (fun fi => !decide (fi ∈ t))
      = idx.filter (fun fi => !decide (fi ∈ g ∧ fi ≠ m)) := by
    apply List.filter_congr
    intro x _
    have : decide (x ∈ t) = decide (x ∈ g ∧ x ≠ m) :=
      decide_eq_decide.mpr (hmem x)
    rw [this]
  refine ⟨by rw [hdd], by rw [hdd], ?_, by rw [hdd, hfeq], by rw [hdd, hfeq]⟩
  intro x hxg
  constructor
  · intro hpath
    obtain ⟨y, hy, hyx⟩ := List.mem_map.mp hpath
    have hyg : y ∈ g := ((hmem y).mp hy).1
    have hxy : y = x := List.inj_on_of_nodup_map hpaths hyg hxg hyx
    exact ((hmem x).mp (hxy ▸ hy)).2
  · intro hxm
    exact List.mem_map_of_mem FileInfo.path ((hmem x).mpr ⟨hxg, hxm⟩)

/-- C3: for a duplicate group with pairwise distinct records and paths on
which every remote delete succeeds, `delete_duplicates` with policy older
keeps exactly the group member with the earliest creation date (earliest
in insertion order on ties): that member is the head of the stable sort,
every other member's path is passed to the remote delete and removed
from the index, and the result is persisted; with policy newer the same
holds for the member with the latest creation date. -/
theorem C3_resolver_survivor_selection (dr : String → DeleteOutcome)
    (idx g : List FileInfo) (hne : g ≠ []) (hnd : g.Nodup)
    (hpaths : (g.map FileInfo.path).Nodup)
    (hsucc : ∀ fi ∈ g, dr fi.path = .success) :
    (∃ m t, sortGroup "older" g = m :: t) ∧
    (∃ m t, sortGroup "newer" g = m :: t) ∧
    (∀ m t, sortGroup "older" g = m :: t →
      IsFirstMinBy FileInfo.creation_date g m ∧
      (delete_duplicates dr "older" idx g).error = none ∧
      (delete_duplicates dr "older" idx g).remoteDeleteCalls
        = t.map FileInfo.path ∧
      (∀ x ∈ g, (x.path ∈ t.map FileInfo.path ↔ x ≠ m)) ∧
      (delete_duplicates dr "older" idx g).image_data
        = idx.filter (fun fi => !decide (fi ∈ g ∧ fi ≠ m)) ∧
      (delete_duplicates dr "older" idx g).saved
        = some (idx.filter (fun fi => !decide (fi ∈ g ∧ fi ≠ m)))) ∧
    (∀ m t, sortGroup "newer" g = m :: t →
      IsFirstMaxBy FileInfo.creation_date g m ∧
      (delete_duplicates dr "newer" idx g).error = none ∧
      (delete_duplicates dr "newer" idx g).remoteDeleteCalls
        = t.map FileInfo.path ∧
      (∀ x ∈ g, (x.path ∈ t.map FileInfo.path ↔ x ≠ m)) ∧
      (delete_duplicates dr "newer" idx g).image_data
        = idx.filter (fun fi => !decide (fi ∈ g ∧ fi ≠ m)) ∧
      (delete_duplicates dr "newer" idx g).saved
        = some (idx.filter (fun fi => !decide (fi ∈ g ∧ fi ≠ m)))) := by
  have hos : sortGroup "older" g
      = g.insertionSort (fun a b => a.creation_date ≤ b.creation_date) := by
    unfold sortGroup
    rw [if_pos rfl]
  have hns : sortGroup "newer" g
      = g.insertionSort (fun a b => b.creation_date ≤ a.creation_date) := by
    unfold sortGroup
    rw [if_neg (by decide), if_pos rfl]
  have hlen : ∀ dc, sortGroup dc g ≠ [] := by
    intro dc hc
    have := (sortGroup_perm dc g).length_eq
    rw [hc] at this
    exact hne (List.eq_nil_of_length_eq_zero this.symm)
  refine ⟨List.exists_cons_of_ne_nil (hlen "older"),
    List.exists_cons_of_ne_nil (hlen "newer"), ?_, ?_⟩
  · intro m t hsort
    have hmin : IsFirstMinBy FileInfo.creation_date g m := by
      apply head_insertionSort_min FileInfo.creation_date g m
      rw [← hos, hsort]
      rfl
    have h := delete_duplicates_spec dr "older" idx g m t hsort hnd hpaths hsucc
    exact ⟨hmin, h.1, h.2.1, h.2.2.1, h.2.2.2.1, h.2.2.2.2⟩
  · intro m t hsort
    have hmax : IsFirstMaxBy FileInfo.creation_date g m := by
      apply head_insertionSort_max FileInfo.creation_date g m
      rw [← hns, hsort]
      rfl
    have h := delete_duplicates_spec dr "newer" idx g m t hsort hnd hpaths hsucc
    exact ⟨hmax, h.1, h.2.1, h.2.2.1, h.2.2.2.1, h.2.2.2.2⟩

theorem C3_resolver_witness :
    (delete_duplicates (fun _ => .success) "older"
        [⟨"/a", "H", 100, 5000⟩, ⟨"/b", "H", 200, 6000⟩]
        [⟨"/a", "H", 100, 5000⟩, ⟨"/b", "H", 200, 6000⟩]).image_data
      = [⟨"/a", "H", 100, 5000⟩] ∧
    (delete_duplicates (fun _ => .success) "older"
        [⟨"/a", "H", 100, 5000⟩, ⟨"/b", "H", 200, 6000⟩]
        [⟨"/a", "H", 100, 5000⟩, ⟨"/b", "H", 200, 6000⟩]).remoteDeleteCalls
      = ["/b"] ∧
    (delete_duplicates (fun _ => .success) "newer"
        [⟨"/a", "H", 100, 5000⟩, ⟨"/b", "H", 200, 6000⟩]
        [⟨"/a", "H", 100, 5000⟩, ⟨"/b", "H", 200, 6000⟩]).image_data
      = [⟨"/b", "H", 200, 6000⟩] ∧
    (delete_duplicates (fun _ => .success) "newer"
        [⟨"/a", "H", 100, 5000⟩, ⟨"/b", "H", 200, 6000⟩]
        [⟨"/a", "H", 100, 5000⟩, ⟨"/b", "H", 200, 6000⟩]).remoteDeleteCalls
      = ["/a"] := by
  have h := C3_resolver_survivor_selection (fun _ => .success)
      [⟨"/a", "H", 100, 5000⟩, ⟨"/b", "H", 200, 6000⟩]
      [⟨"/a", "H", 100, 5000⟩, ⟨"/b", "H", 200, 6000⟩]
      (by decide) (by decide) (by decide) (fun fi _ => rfl)
  obtain ⟨-, -, ho, hn⟩ := h
  have h1 := ho ⟨"/a", "H", 100, 5000⟩ [⟨"/b", "H", 200, 6000⟩] (by decide)
  have h2 := hn ⟨"/b", "H", 200, 6000⟩ [⟨"/a", "H", 100, 5000⟩] (by decide)
  refine ⟨?_, ?_, ?_, ?_⟩
  · rw [h1.2.2.2.2.1]; decide
  · rw [h1.2.2.1]; decide
  · rw [h2.2.2.2.2.1]; decide
  · rw [h2.2.2.1]; decide

theorem traverse_unlistable (it : String) (md : Option Nat) (p : String)
    (cs : List NasNode) : traverse_nas_folder it md p false cs = [] := by
  by_cases h : depthExceeded md p = true <;> simp [traverse_nas_folder, h]

theorem traverse_empty_listing (it : String) (md : Option Nat) (p : String) :
    traverse_nas_folder it md p true [] = [] := by
  by_cases h : depthExceeded md p = true <;>
    simp [traverse_nas_folder, traverseItems, h]

theorem traverseItems_append (it : String) (md : Option Nat) (f : String) :
    ∀ xs ys : List NasNode,
      traverseItems it md f (xs ++ ys)
        = traverseItems it md f xs ++ traverseItems it md f ys
  | [], ys => by simp [traverseItems]
  | .file n t c :: xs, ys => by
    rw [List.cons_append]
    simp only [traverseItems]
    rw [traverseItems_append it md f xs ys, List.append_assoc]
  | .dir n l cs :: xs, ys => by
    rw [List.cons_append]
    simp only [traverseItems]
    rw [traverseItems_append it md f xs ys]
    simp [List.append_assoc]

/-- C7: when listing one subdirectory under the root fails, the traversal
returns exactly what it would return were that subdirectory present but
empty: every sibling subtree's entries are intact, the failed subtree
contributes nothing below the directory entry itself, and the function is
total, so no exception reaches the caller (the source catches any listing
exception inside the recursive call and returns the partial list). -/
theorem C7_partial_failure_traversal (it : String) (md : Option Nat)
    (root : String) (pre post : List NasNode) (name : String)
    (cs : List NasNode) :
    traverse_nas_folder it md root true (pre ++ NasNode.dir name false cs :: post)
      = traverse_nas_folder it md root true (pre ++ NasNode.dir name true [] :: post) := by
  by_cases hcut : depthExceeded md root = true
  · simp [traverse_nas_folder, hcut]
  · have hmidF : traverseItems it md root (NasNode.dir name false cs :: post)
        = (if it = "folders" ∨ it = "both" then [joinPath root name] else [])
          ++ traverseItems it md root post := by
      simp only [traverseItems]
      rw [traverse_unlistable]
      simp
    have hmidT : traverseItems it md root (NasNode.dir name true [] :: post)
        = (if it = "folders" ∨ it = "both" then [joinPath root name] else [])
          ++ traverseItems it md root post := by
      simp only [traverseItems]
      rw [traverse_empty_listing]
      simp
    simp [traverse_nas_folder, hcut, traverseItems_append, hmidF, hmidT]

/-- A well-formed listing entry name: nonempty, with no separator inside,
as real SMB entry names are. -/
def cleanName (n : String) : Bool :=
  !decide (n.data = []) && !decide ('/' ∈ n.data)

mutual
/-- All entry names in the node are well-formed path components. -/
def cleanNamesNode : NasNode → Bool
  | .file name _ _ => cleanName name
  | .dir name _ children => cleanName name && cleanNamesNodes children

/-- All entry names in the listing are well-formed path components. -/
def cleanNamesNodes : List NasNode → Bool
  | [] => true
  | e :: rest => cleanNamesNode e && cleanNamesNodes rest
end

/-- Folder paths from which joining a clean component adds exactly one
separator to the count: the root "/" itself, or any path that does not
end in the separator.  Every folder path the traversal constructs below
such a root again has this shape. -/
def goodFolder (p : String) : Prop :=
  p = "/" ∨ p.data.getLast? ≠ some '/'

theorem getLast?_ne_of_not_mem {l : List Char} {c : Char} (h : c ∉ l) :
    l.getLast? ≠ some c := by
  intro hc
  apply h
  have hmem : c ∈ l.getLast? := by rw [hc]; rfl
  obtain ⟨hne, heq⟩ := List.mem_getLast?_eq_getLast hmem
  rw [heq]
  exact List.getLast_mem hne

theorem joinPath_clean (f n : String) (hf : goodFolder f)
    (hn : cleanName n = true) :
    pathDepth (joinPath f n) = pathDepth f + 1 ∧ goodFolder (joinPath f n) := by
  have hn' : ¬n.data = [] ∧ '/' ∉ n.data := by
    simpa [cleanName, Bool.and_eq_true] using hn
  obtain ⟨c, cs, hdata⟩ : ∃ c cs, n.data = c :: cs := by
    cases hnd : n.data with
    | nil => exact absurd hnd hn'.1
    | cons c cs => exact ⟨c, cs, rfl⟩
  have hn2 : '/' ∉ c :: cs := hdata ▸ hn'.2
  have hc : c ≠ '/' := fun h => hn2 (h ▸ List.mem_cons_self c cs)
  have hhead : ¬n.data.head? = some '/' := by
    rw [hdata]
    simp only [List.head?_cons]
    intro h
    injection h with h
    exact hc h
  have hcnt : (c :: cs).count '/' = 0 :=
    List.count_eq_zero.mpr hn2
  have hlast2 : (c :: cs).getLast? ≠ some '/' := getLast?_ne_of_not_mem hn2
  rcases hf with hf | hf
  · subst hf
    have hlast : ("/" : String).data.getLast? = some '/' := by decide
    have hjoin : joinPath "/" n = "/" ++ n := by
      unfold joinPath
      rw [if_neg hhead, if_pos hlast]
    have hdata2 : (("/" : String) ++ n).data = '/' :: c :: cs := by
      rw [String.data_append, hdata]
      rfl
    rw [hjoin]
    constructor
    · have hne2 : ("/" : String) ++ n ≠ "/" := by
        intro h
        have h2 := congrArg String.data h
        rw [hdata2] at h2
        simp at h2
      rw [pathDepth, if_neg hne2, hdata2]
      rw [pathDepth, if_pos rfl]
      simp [List.count_cons, hcnt, hc]
    · right
      rw [hdata2,
        show ('/' :: c :: cs) = ['/'] ++ c :: cs from rfl,
        List.getLast?_append_cons]
      exact hlast2
  · have hfne : f ≠ "/" := by
      intro h
      subst h
      exact hf (by decide)
    have hjoin : joinPath f n = f ++ "/" ++ n := by
      unfold joinPath
      rw [if_neg hhead, if_neg hf]
    have hdata2 : (f ++ "/" ++ n).data = f.data ++ '/' :: c :: cs := by
      rw [String.data_append, String.data_append, hdata]
      simp
    rw [hjoin]
    constructor
    · have hne2 : f ++ "/" ++ n ≠ "/" := by
        intro h
        have h2 := congrArg String.data h
        rw [hdata2] at h2
        have h3 := congrArg List.length h2
        simp at h3
        omega
      rw [pathDepth, if_neg hne2, hdata2]
      rw [pathDepth, if_neg hfne]
      rw [List.count_append]
      simp [List.count_cons, hcnt, hc]
    · right
      rw [hdata2, List.getLast?_append_cons,
        show ('/' :: c :: cs) = ['/'] ++ c :: cs from rfl,
        List.getLast?_append_cons]
      exact hlast2

theorem traverse_cutoff (it : String) (md : Option Nat) (f : String)
    (l : Bool) (cs : List NasNode) (hdx : depthExceeded md f = true) :
    traverse_nas_folder it md f l cs = [] := by
  rw [traverse_nas_folder.eq_def, hdx]
  simp

theorem traverse_eq_items (it : String) (md : Option Nat) (f : String)
    (cs : List NasNode) (hdx : depthExceeded md f = false) :
    traverse_nas_folder it md f true cs = traverseItems it md f cs := by
  rw [traverse_nas_folder.eq_def, hdx]
  simp

mutual
theorem traverse_depth_lb (it : String) (md : Option Nat) (f : String)
    (l : Bool) (cs : List NasNode) (hf : goodFolder f)
    (hc : cleanNamesNodes cs = true) :
    ∀ p ∈ traverse_nas_folder it md f l cs, pathDepth f + 1 ≤ pathDepth p := by
  intro p hp
  by_cases hdx : depthExceeded md f = true
  · rw [traverse_cutoff it md f l cs hdx] at hp
    simp at hp
  · have hdx2 : depthExceeded md f = false := by
      revert hdx
      cases depthExceeded md f <;> simp
    cases l with
    | false =>
      rw [traverse_unlistable] at hp
      simp at hp
    | true =>
      rw [traverse_eq_items it md f cs hdx2] at hp
      exact items_depth_lb it md f cs hf hc p hp
termination_by (sizeOf cs, 1)

theorem items_depth_lb (it : String) (md : Option Nat) (f : String)
    (es : List NasNode) (hf : goodFolder f)
    (hc : cleanNamesNodes es = true) :
    ∀ p ∈ traverseItems it md f es, pathDepth f + 1 ≤ pathDepth p := by
  match es with
  | [] =>
    intro p hp
    simp [traverseItems] at hp
  | .file name t c :: rest =>
    have hcn : cleanName name = true ∧ cleanNamesNodes rest = true := by
      simpa [cleanNamesNodes, cleanNamesNode, Bool.and_eq_true] using hc
    intro p hp
    simp only [traverseItems, List.mem_append] at hp
    rcases hp with hy | hr
    · have hpj : p = joinPath f name := by
        by_cases hit : it = "files" ∨ it = "both"
        · rw [if_pos hit] at hy
          simpa using hy
        · rw [if_neg hit] at hy
          simp at hy
      rw [hpj, (joinPath_clean f name hf hcn.1).1]
    · exact items_depth_lb it md f rest hf hcn.2 p hr
  | .dir name l' cs' :: rest =>
    have hcn : (cleanName name = true ∧ cleanNamesNodes cs' = true) ∧
        cleanNamesNodes rest = true := by
      simpa [cleanNamesNodes, cleanNamesNode, Bool.and_eq_true, and_assoc]
        using hc
    intro p hp
    simp only [traverseItems, List.mem_append] at hp
    have hjc := joinPath_clean f name hf hcn.1.1
    rcases hp with (hy | hm) | hr
    · have hpj : p = joinPath f name := by
        by_cases hit : it = "folders" ∨ it = "both"
        · rw [if_pos hit] at hy
          simpa using hy
        · rw [if_neg hit] at hy
          simp at hy
      rw [hpj, hjc.1]
    · have hlb := traverse_depth_lb it md (joinPath f name) l' cs' hjc.2
        hcn.1.2 p hm
      rw [hjc.1] at hlb
      omega
    · exact items_depth_lb it md f rest hf hcn.2 p hr
termination_by (sizeOf es, 0)
end

mutual
theorem traverse_depth_iff (it : String) (d : Nat) (f : String) (l : Bool)
    (cs : List NasNode) (hf : goodFolder f)
    (hc : cleanNamesNodes cs = true) :
    ∀ p, p ∈ traverse_nas_folder it (some d) f l cs ↔
      (p ∈ traverse_nas_folder it none f l cs ∧ pathDepth p ≤ d + 1) := by
  intro p
  by_cases hcut : pathDepth f > d
  · have hdx : depthExceeded (some d) f = true := by
      simp [depthExceeded, hcut]
    rw [traverse_cutoff it (some d) f l cs hdx]
    constructor
    · intro hp
      simp at hp
    · rintro ⟨hp, hd⟩
      have hlb := traverse_depth_lb it none f l cs hf hc p hp
      omega
  · have hdx : depthExceeded (some d) f = false := by
      simp only [depthExceeded, decide_eq_false_iff_not]
      omega
    cases l with
    | false =>
      rw [traverse_unlistable, traverse_unlistable]
      simp
    | true =>
      rw [traverse_eq_items it (some d) f cs hdx,
        traverse_eq_items it none f cs rfl]
      exact items_depth_iff it d f cs hf hc (by omega) p
termination_by (sizeOf cs, 1)

theorem items_depth_iff (it : String) (d : Nat) (f : String)
    (es : List NasNode) (hf : goodFolder f)
    (hc : cleanNamesNodes es = true) (hfd : pathDepth f ≤ d) :
    ∀ p, p ∈ traverseItems it (some d) f es ↔
      (p ∈ traverseItems it none f es ∧ pathDepth p ≤ d + 1) := by
  match es with
  | [] =>
    intro p
    simp [traverseItems]
  | .file name t c :: rest =>
    have hcn : cleanName name = true ∧ cleanNamesNodes rest = true := by
      simpa [cleanNamesNodes, cleanNamesNode, Bool.and_eq_true] using hc
    have hdepth := (joinPath_clean f name hf hcn.1).1
    intro p
    by_cases hit : it = "files" ∨ it = "both"
    · simp only [traverseItems, if_pos hit, List.mem_append,
        List.mem_singleton]
      rw [items_depth_iff it d f rest hf hcn.2 hfd p]
      constructor
      · rintro (rfl | ⟨hn, hdp⟩)
        · exact ⟨Or.inl rfl, by rw [hdepth]; omega⟩
        · exact ⟨Or.inr hn, hdp⟩
      · rintro ⟨rfl | hn, hdp⟩
        · exact Or.inl rfl
        · exact Or.inr ⟨hn, hdp⟩
    · simp only [traverseItems, if_neg hit, List.nil_append]
      exact items_depth_iff it d f rest hf hcn.2 hfd p
  | .dir name l' cs' :: rest =>
    have hcn : (cleanName name = true ∧ cleanNamesNodes cs' = true) ∧
        cleanNamesNodes rest = true := by
      simpa [cleanNamesNodes, cleanNamesNode, Bool.and_eq_true, and_assoc]
        using hc
    have hjc := joinPath_clean f name hf hcn.1.1
    have hmid := traverse_depth_iff it d (joinPath f name) l' cs' hjc.2 hcn.1.2
    intro p
    by_cases hit : it = "folders" ∨ it = "both"
    · simp only [traverseItems, if_pos hit, List.mem_append,
        List.mem_singleton, or_assoc]
      rw [hmid p, items_depth_iff it d f rest hf hcn.2 hfd p]
      constructor
      · rintro (rfl | ⟨hm, hdp⟩ | ⟨hn, hdp⟩)
        · exact ⟨Or.inl rfl, by rw [hjc.1]; omega⟩
        · exact ⟨Or.inr (Or.inl hm), hdp⟩
        · exact ⟨Or.inr (Or.inr hn), hdp⟩
      · rintro ⟨rfl | hm | hn, hdp⟩
        · exact Or.inl rfl
        · exact Or.inr (Or.inl ⟨hm, hdp⟩)
        · exact Or.inr (Or.inr ⟨hn, hdp⟩)
    · simp only [traverseItems, if_neg hit, List.nil_append, List.mem_append]
      rw [hmid p, items_depth_iff it d f rest hf hcn.2 hfd p]
      constructor
      · rintro (⟨hm, hdp⟩ | ⟨hn, hdp⟩)
        · exact ⟨Or.inl hm, hdp⟩
        · exact ⟨Or.inr hn, hdp⟩
      · rintro ⟨hm | hn, hdp⟩
        · exact Or.inl ⟨hm, hdp⟩
        · exact Or.inr ⟨hn, hdp⟩
termination_by (sizeOf es, 0)
end

/-- C6 counterexample: with rootPath "/" and maxDepth 1 the traversal of a
tree holding the file g inside the directory d yields the entry "/d/g",
whose path-separator depth from the root is 2 — strictly deeper than
maxDepth — because the code compares the bound against the absolute
separator count of the folder it is entering, not the depth relative to
rootPath with the root at 0. -/
theorem C6_depth_counterexample :
    traverse_nas_folder "both" (some 1) "/" true
        [NasNode.dir "d" true [NasNode.file "g" 0 []]] = ["/d", "/d/g"] ∧
    pathDepth "/d/g" = 2 ∧ pathDepth "/" = 0 := by
  refine ⟨?_, by decide, by decide⟩
  simp [traverse_nas_folder, traverseItems, joinPath, pathDepth, depthExceeded]

/-- C6 amended: the cutoff is evaluated on the absolute separator count of
each folder being entered (with "/" counted as 0), so over well-formed
entry names an entry is yielded with a finite maxDepth iff the unbounded
traversal yields it and the entry's own separator count is at most
maxDepth + 1; relative to rootPath this admits entries down to depth
maxDepth - count(rootPath) + 1, not maxDepth. -/
theorem C6_amended_depth_bound (it : String) (d : Nat) (f : String)
    (l : Bool) (cs : List NasNode) (hf : goodFolder f)
    (hc : cleanNamesNodes cs = true) (p : String) :
    p ∈ traverse_nas_folder it (some d) f l cs ↔
      (p ∈ traverse_nas_folder it none f l cs ∧ pathDepth p ≤ d + 1) :=
  traverse_depth_iff it d f l cs hf hc p

theorem C6_amended_witness :
    ("/d/g" ∈ traverse_nas_folder "both" (some 1) "/" true
        [NasNode.dir "d" true [NasNode.file "g" 0 []]] ↔
      ("/d/g" ∈ traverse_nas_folder "both" none "/" true
          [NasNode.dir "d" true [NasNode.file "g" 0 []]] ∧
        pathDepth "/d/g" ≤ 1 + 1)) ∧
    ("/d/g/x" ∈ traverse_nas_folder "both" (some 1) "/" true
        [NasNode.dir "d" true [NasNode.file "g" 0 []]] ↔
      ("/d/g/x" ∈ traverse_nas_folder "both" none "/" true
          [NasNode.dir "d" true [NasNode.file "g" 0 []]] ∧
        pathDepth "/d/g/x" ≤ 1 + 1)) := by
  constructor
  · exact C6_amended_depth_bound "both" 1 "/" true
      [NasNode.dir "d" true [NasNode.file "g" 0 []]] (Or.inl rfl)
      (by simp [cleanNamesNodes, cleanNamesNode]; decide) "/d/g"
  · exact C6_amended_depth_bound "both" 1 "/" true
      [NasNode.dir "d" true [NasNode.file "g" 0 []]] (Or.inl rfl)
      (by simp [cleanNamesNodes, cleanNamesNode]; decide) "/d/g/x"

mutual
theorem hashNode_isSome (md5 : List Nat → String) (idx : List FileInfo)
    (folder : String) (e : NasNode) (hl : allListableNode e = true) :
    (hashNode md5 idx folder e).isSome := by
  match e with
  | .file name t c =>
    simp only [hashNode]
    cases idx.find? (fun item => item.path = joinPath folder name) <;> simp
  | .dir name l cs =>
    have hl2 : l = true ∧ allListableNodes cs = true := by
      simpa [allListableNode, Bool.and_eq_true] using hl
    simp [hashNode, hl2.1]
    exact hashNodes_isSome md5 idx (joinPath folder name) cs hl2.2
termination_by sizeOf e

theorem hashNodes_isSome (md5 : List Nat → String) (idx : List FileInfo)
    (folder : String) (es : List NasNode)
    (hl : allListableNodes es = true) :
    (recursive_hashes md5 idx folder es).isSome := by
  match es with
  | [] => simp [recursive_hashes]
  | e :: rest =>
    have hl2 : allListableNode e = true ∧ allListableNodes rest = true := by
      simpa [allListableNodes, Bool.and_eq_true] using hl
    have h1 := hashNode_isSome md5 idx folder e hl2.1
    have h2 := hashNodes_isSome md5 idx folder rest hl2.2
    simp only [recursive_hashes]
    cases ha : hashNode md5 idx folder e with
    | none => rw [ha] at h1; simp at h1
    | some a =>
      cases hb : recursive_hashes md5 idx folder rest with
      | none => rw [hb] at h2; simp at h2
      | some b => simp
termination_by sizeOf es
end

mutual
theorem hashNode_map_path (md5 : List Nat → String) (idx : List FileInfo)
    (folder : String) (e : NasNode) :
    ∀ r, hashNode md5 idx folder e = some r →
      r.1.map FileInfo.path = filePathsNode folder e := by
  intro r hr
  match e with
  | .file name t c =>
    simp only [hashNode] at hr
    cases hfind : idx.find? (fun item => item.path = joinPath folder name) with
    | some ex =>
      rw [hfind] at hr
      simp at hr
      have hex : ex.path = joinPath folder name := by
        have hp := List.find?_some hfind
        simpa using hp
      rw [← hr]
      simp [filePathsNode, hex]
    | none =>
      rw [hfind] at hr
      simp at hr
      rw [← hr]
      simp [filePathsNode]
  | .dir name l cs =>
    simp only [hashNode] at hr
    cases l with
    | false => simp at hr
    | true =>
      simp at hr
      have hsub := hashNodes_map_path md5 idx (joinPath folder name) cs r hr
      simpa [filePathsNode] using hsub
termination_by sizeOf e

theorem hashNodes_map_path (md5 : List Nat → String) (idx : List FileInfo)
    (folder : String) (es : List NasNode) :
    ∀ r, recursive_hashes md5 idx folder es = some r →
      r.1.map FileInfo.path = filePathsNodes folder es := by
  intro r hr
  match es with
  | [] =>
    simp only [recursive_hashes] at hr
    injection hr with hr
    rw [← hr]
    simp [filePathsNodes]
  | e :: rest =>
    simp only [recursive_hashes] at hr
    cases ha : hashNode md5 idx folder e with
    | none => rw [ha] at hr; simp at hr
    | some a =>
      rw [ha] at hr
      cases hb : recursive_hashes md5 idx folder rest with
      | none => rw [hb] at hr; simp at hr
      | some b =>
        rw [hb] at hr
        simp at hr
        have h1 := hashNode_map_path md5 idx folder e a ha
        have h2 := hashNodes_map_path md5 idx folder rest b hb
        rw [← hr]
        simp [filePathsNodes, h1, h2]
termination_by sizeOf es
end

/-- Default record used only as the `Option.getD` fallback below. -/
def dfltFileInfo : FileInfo := ⟨"", "", 0, 0⟩

mutual
theorem hashNode_hashed_fresh (md5 : List Nat → String) (idx : List FileInfo)
    (folder : String) (e : NasNode) :
    ∀ r, hashNode md5 idx folder e = some r →
      ∀ p ∈ r.2, idx.find? (fun i => i.path = p) = none := by
  intro r hr p hp
  match e with
  | .file name t c =>
    simp only [hashNode] at hr
    cases hfind : idx.find? (fun item => item.path = joinPath folder name) with
    | some ex =>
      rw [hfind] at hr
      simp at hr
      rw [← hr] at hp
      simp at hp
    | none =>
      rw [hfind] at hr
      simp at hr
      rw [← hr] at hp
      simp at hp
      subst hp
      exact hfind
  | .dir name l cs =>
    simp only [hashNode] at hr
    cases l with
    | false => simp at hr
    | true =>
      simp at hr
      exact hashNodes_hashed_fresh md5 idx (joinPath folder name) cs r hr p hp
termination_by sizeOf e

theorem hashNodes_hashed_fresh (md5 : List Nat → String) (idx : List FileInfo)
    (folder : String) (es : List NasNode) :
    ∀ r, recursive_hashes md5 idx folder es = some r →
      ∀ p ∈ r.2, idx.find? (fun i => i.path = p) = none := by
  intro r hr p hp
  match es with
  | [] =>
    simp only [recursive_hashes] at hr
    injection hr with hr
    rw [← hr] at hp
    simp at hp
  | e :: rest =>
    simp only [recursive_hashes] at hr
    cases ha : hashNode md5 idx folder e with
    | none => rw [ha] at hr; simp at hr
    | some a =>
      rw [ha] at hr
      cases hb : recursive_hashes md5 idx folder rest with
      | none => rw [hb] at hr; simp at hr
      | some b =>
        rw [hb] at hr
        simp at hr
        rw [← hr] at hp
        simp at hp
        rcases hp with hp | hp
        · exact hashNode_hashed_fresh md5 idx folder e a ha p hp
        · exact hashNodes_hashed_fresh md5 idx folder rest b hb p hp
termination_by sizeOf es
end

mutual
theorem hashNode_all_found (md5 : List Nat → String) (idx : List FileInfo)
    (folder : String) (e : NasNode) (hl : allListableNode e = true)
    (hfind : ∀ p ∈ filePathsNode folder e,
      (idx.find? (fun i => i.path = p)).isSome) :
    hashNode md5 idx folder e
      = some ((filePathsNode folder e).map
          (fun p => (idx.find? (fun i => i.path = p)).getD dfltFileInfo),
        []) := by
  match e with
  | .file name t c =>
    have hp := hfind (joinPath folder name) (by simp [filePathsNode])
    obtain ⟨ex, hex⟩ := Option.isSome_iff_exists.mp hp
    simp only [hashNode, filePathsNode]
    rw [hex]
    simp [hex]
  | .dir name l cs =>
    have hl2 : l = true ∧ allListableNodes cs = true := by
      simpa [allListableNode, Bool.and_eq_true] using hl
    have hsub := hashNodes_all_found md5 idx (joinPath folder name) cs hl2.2
      (by
        intro p hp
        exact hfind p (by simpa [filePathsNode] using hp))
    simp [hashNode, hl2.1, hsub, filePathsNode]
termination_by sizeOf e

theorem hashNodes_all_found (md5 : List Nat → String) (idx : List FileInfo)
    (folder : String) (es : List NasNode) (hl : allListableNodes es = true)
    (hfind : ∀ p ∈ filePathsNodes folder es,
      (idx.find? (fun i => i.path = p)).isSome) :
    recursive_hashes md5 idx folder es
      = some ((filePathsNodes folder es).map
          (fun p => (idx.find? (fun i => i.path = p)).getD dfltFileInfo),
        []) := by
  match es with
  | [] => simp [recursive_hashes, filePathsNodes]
  | e :: rest =>
    have hl2 : allListableNode e = true ∧ allListableNodes rest = true := by
      simpa [allListableNodes, Bool.and_eq_true] using hl
    have h1 := hashNode_all_found md5 idx folder e hl2.1
      (fun p hp => hfind p (by simp [filePathsNodes, hp]))
    have h2 := hashNodes_all_found md5 idx folder rest hl2.2
      (fun p hp => hfind p (by simp [filePathsNodes, hp]))
    simp only [recursive_hashes, h1, h2]
    simp [filePathsNodes, List.map_append]
termination_by sizeOf es
end

theorem find_isSome_of_mem_paths (idx : List FileInfo) (p : String)
    (h : p ∈ idx.map FileInfo.path) :
    (idx.find? (fun i => i.path = p)).isSome := by
  induction idx with
  | nil => simp at h
  | cons a l ih =>
    by_cases hp : a.path = p
    · rw [List.find?_cons_of_pos _ (by simp [hp])]
      simp
    · rw [List.find?_cons_of_neg _ (by simp [hp])]
      apply ih
      simp only [List.map_cons, List.mem_cons] at h
      rcases h with h | h
      · exact absurd h.symm hp
      · exact h

theorem map_find_self (d : FileInfo) (idx : List FileInfo)
    (hnd : (idx.map FileInfo.path).Nodup) :
    (idx.map FileInfo.path).map
        (fun p => (idx.find? (fun i => i.path = p)).getD d) = idx := by
  induction idx with
  | nil => rfl
  | cons a l ih =>
    simp only [List.map_cons] at hnd ⊢
    rw [List.nodup_cons] at hnd
    rw [List.find?_cons_of_pos _ (by simp)]
    simp only [Option.getD_some]
    congr 1
    have hcong : (l.map FileInfo.path).map
        (fun p => ((a :: l).find? (fun i => i.path = p)).getD d)
        = (l.map FileInfo.path).map
          (fun p => (l.find? (fun i => i.path = p)).getD d) := by
      apply List.map_congr_left
      intro p hp
      have hpa : ¬a.path = p := fun he => hnd.1 (he ▸ hp)
      rw [List.find?_cons_of_neg _ (by simp [hpa])]
    rw [hcong, ih hnd.2]

/-- C5: rebuilding against an unchanged remote tree is idempotent: when
every directory is listable and the walked file paths are distinct, a
rebuild from any starting index produces some record list, and a second
rebuild from that list returns exactly the same records while invoking
the Content Hasher on no path at all — in particular on no path present
in the prior index, every such record being carried forward unchanged. -/
theorem C5_idempotent_rebuild (md5 : List Nat → String)
    (idx0 : List FileInfo) (folder : String) (tree : List NasNode)
    (hL : allListableNodes tree = true)
    (hnd : (filePathsNodes folder tree).Nodup) :
    (update_db md5 idx0 folder tree).isSome ∧
    ∀ r1, update_db md5 idx0 folder tree = some r1 →
      update_db md5 r1.1 folder tree = some (r1.1, []) := by
  constructor
  · exact hashNodes_isSome md5 idx0 folder tree hL
  · intro r1 h1
    have hpaths : r1.1.map FileInfo.path = filePathsNodes folder tree :=
      hashNodes_map_path md5 idx0 folder tree r1 h1
    have hfind : ∀ p ∈ filePathsNodes folder tree,
        (r1.1.find? (fun i => i.path = p)).isSome := by
      intro p hp
      exact find_isSome_of_mem_paths r1.1 p (by rw [hpaths]; exact hp)
    have h2 := hashNodes_all_found md5 r1.1 folder tree hL hfind
    unfold update_db
    rw [h2]
    rw [← hpaths]
    rw [map_find_self dfltFileInfo r1.1 (by rw [hpaths]; exact hnd)]

theorem C5_rebuild_witness :
    (update_db (fun _ => "h") [] "/root"
        [NasNode.dir "d" true [NasNode.file "g" 5 [1, 2]],
          NasNode.file "f" 7 [3]]).isSome ∧
    ∀ r1, update_db (fun _ => "h") [] "/root"
        [NasNode.dir "d" true [NasNode.file "g" 5 [1, 2]],
          NasNode.file "f" 7 [3]] = some r1 →
      update_db (fun _ => "h") r1.1 "/root"
        [NasNode.dir "d" true [NasNode.file "g" 5 [1, 2]],
          NasNode.file "f" 7 [3]] = some (r1.1, []) :=
  C5_idempotent_rebuild (fun _ => "h") [] "/root"
    [NasNode.dir "d" true [NasNode.file "g" 5 [1, 2]],
      NasNode.file "f" 7 [3]]
    (by simp [allListableNodes, allListableNode])
    (by simp only [filePathsNodes, filePathsNode]; decide)

/-- C8 counterexample: with `delete_small_images` set, a local file whose
remote namesake already exists in the target folder is nonetheless
removed locally (by the small-file filter, which runs before the
exists-remotely check), even though no remote write happened: the claim
that the local file is never deleted when its name already exists
remotely fails here. -/
theorem C8_small_file_counterexample :
    copy_files_to_nas_photos_library [⟨"photo.jpg", [0]⟩] ["photo.jpg"]
        true true
      = ⟨[], ["photo.jpg"]⟩ := by
  decide

theorem sync_name_frame (existing : List String) (dsi mv : Bool) :
    ∀ (files : List LocalFile) (n : String), n ∉ files.map LocalFile.name →
      n ∉ (copy_files_to_nas_photos_library files existing dsi mv).stores.map
          Prod.fst ∧
      n ∉ (copy_files_to_nas_photos_library files existing dsi mv).localRemoved
  | [], n, _ => by simp [copy_files_to_nas_photos_library]
  | g :: rest, n, h => by
    simp only [List.map_cons, List.mem_cons, not_or] at h
    have ih := sync_name_frame existing dsi mv rest n h.2
    simp only [copy_files_to_nas_photos_library]
    by_cases h1 : (dsi && decide (g.content.length < 10000)) = true
    · rw [if_pos h1]
      refine ⟨ih.1, ?_⟩
      simp only [List.mem_cons, not_or]
      exact ⟨h.1, ih.2⟩
    · rw [if_neg h1]
      by_cases h2 : g.name ∈ existing
      · rw [if_pos h2]
        exact ih
      · rw [if_neg h2]
        constructor
        · simp only [List.map_cons, List.mem_cons, not_or]
          exact ⟨h.1, ih.1⟩
        · by_cases hmv : mv = true
          · simp only [if_pos hmv, List.mem_cons, not_or]
            exact ⟨h.1, ih.2⟩
          · simp only [if_neg hmv]
            exact ih.2

/-- C8 amended: when a remote file with the same name as a local file
already exists in the target folder, and the local file is not taken by
the small-file filter (`delete_small_images` unset or size at least
10000), the sync writes nothing remotely under that name and never
removes the local file, even with `move_files` set. -/
theorem C8_skip_existing_amended (existing : List String) (dsi mv : Bool)
    (f : LocalFile) (hex : f.name ∈ existing)
    (hns : ¬(dsi = true ∧ f.content.length < 10000)) :
    ∀ files : List LocalFile, (files.map LocalFile.name).Nodup → f ∈ files →
      f.name ∉ (copy_files_to_nas_photos_library files existing dsi
          mv).stores.map Prod.fst ∧
      f.name ∉ (copy_files_to_nas_photos_library files existing dsi
          mv).localRemoved
  | [], _, hf => by simp at hf
  | g :: rest, hnd, hf => by
    simp only [List.map_cons, List.nodup_cons] at hnd
    rcases List.mem_cons.mp hf with rfl | hf2
    · have hsm : (dsi && decide (f.content.length < 10000)) = false := by
        cases hd : dsi with
        | false => simp
        | true =>
          simp only [Bool.true_and]
          rw [decide_eq_false_iff_not]
          intro hlen
          exact hns ⟨hd, hlen⟩
      simp only [copy_files_to_nas_photos_library, hsm]
      rw [if_neg (by simp), if_pos hex]
      exact sync_name_frame existing dsi mv rest f.name hnd.1
    · have hgname : g.name ≠ f.name := by
        intro he
        exact hnd.1 (he ▸ List.mem_map_of_mem LocalFile.name hf2)
      have ih2 := C8_skip_existing_amended existing dsi mv f hex hns rest
        hnd.2 hf2
      simp only [copy_files_to_nas_photos_library]
      by_cases h1 : (dsi && decide (g.content.length < 10000)) = true
      · rw [if_pos h1]
        refine ⟨ih2.1, ?_⟩
        simp only [List.mem_cons, not_or]
        exact ⟨fun he => hgname he.symm, ih2.2⟩
      · rw [if_neg h1]
        by_cases h2 : g.name ∈ existing
        · rw [if_pos h2]
          exact ih2
        · rw [if_neg h2]
          constructor
          · simp only [List.map_cons, List.mem_cons, not_or]
            exact ⟨fun he => hgname he.symm, ih2.1⟩
          · by_cases hmv : mv = true
            · simp only [if_pos hmv, List.mem_cons, not_or]
              exact ⟨fun he => hgname he.symm, ih2.2⟩
            · simp only [if_neg hmv]
              exact ih2.2

theorem C8_skip_existing_witness :
    "photo.jpg" ∉ (copy_files_to_nas_photos_library
        [⟨"photo.jpg", [0]⟩, ⟨"other.jpg", [1]⟩] ["photo.jpg"] false
        true).stores.map Prod.fst ∧
    "photo.jpg" ∉ (copy_files_to_nas_photos_library
        [⟨"photo.jpg", [0]⟩, ⟨"other.jpg", [1]⟩] ["photo.jpg"] false
        true).localRemoved :=
  C8_skip_existing_amended ["photo.jpg"] false true ⟨"photo.jpg", [0]⟩
    (by decide) (by decide)
    [⟨"photo.jpg", [0]⟩, ⟨"other.jpg", [1]⟩] (by decide) (by decide)

/-- C9 counterexample: when the persisted file is missing and the
update flag is false, the rebuild is indeed skipped, but the subsequent
operations run against the in-memory index as it was — here a nonempty
one — not against an empty index: `load_db` returns before clearing
`image_data` when the file does not exist. -/
theorem C9_missing_file_counterexample :
    cleanup_index (fun _ => "h") .missing false [⟨"/a", "h1", 1, 2⟩]
        "/x" []
      = some ([⟨"/a", "h1", 1, 2⟩], false) ∧
    ([⟨"/a", "h1", 1, 2⟩] : List FileInfo) ≠ [] := by
  constructor
  · rfl
  · simp

/-- C9 amended: `cleanup_nas_images` rebuilds exactly when `load_db`
succeeds or the flag is set (in particular a successful load always
triggers a rebuild regardless of the flag); the rebuild is skipped only
when loading fails and the flag is false, and the subsequent operations
then run against the index `load_db` left in memory — cleared (empty)
after a parse failure, but unchanged when the file is missing. -/
theorem C9_rebuild_condition_amended (md5 : List Nat → String)
    (outcome : LoadOutcome) (flag : Bool) (idx : List FileInfo)
    (folder : String) (tree : List NasNode) :
    (∀ r, cleanup_index md5 outcome flag idx folder tree = some r →
      r.2 = (loadSucceeds outcome || flag)) ∧
    (loadSucceeds outcome = false → flag = false →
      cleanup_index md5 outcome flag idx folder tree
        = some ((load_db outcome idx).2, false)) ∧
    (outcome = .parseError → flag = false →
      cleanup_index md5 outcome flag idx folder tree
        = some ([], false)) := by
  have hls : (load_db outcome idx).1 = loadSucceeds outcome := by
    cases outcome <;> rfl
  refine ⟨?_, ?_, ?_⟩
  · intro r hr
    simp only [cleanup_index] at hr
    rw [hls] at hr
    by_cases hb : (loadSucceeds outcome || flag) = true
    · rw [if_pos hb] at hr
      cases hu : update_db md5 (load_db outcome idx).2 folder tree with
      | none =>
        rw [hu] at hr
        simp at hr
      | some u =>
        rw [hu] at hr
        simp at hr
        rw [← hr, hb]
    · rw [if_neg hb] at hr
      injection hr with hr
      rw [← hr]
      cases hor : (loadSucceeds outcome || flag) with
      | false => rfl
      | true => exact absurd hor hb
  · intro hl hf
    simp only [cleanup_index]
    rw [hls, hl, hf]
    rfl
  · intro ho hf
    subst ho
    subst hf
    simp [cleanup_index, load_db, loadSucceeds]

theorem C9_rebuild_witness :
    cleanup_index (fun _ => "h") (.loaded [⟨"/a", "h1", 1, 2⟩]) false []
        "/x" [] = some ([], true) ∧
    (true : Bool) = (loadSucceeds (.loaded [⟨"/a", "h1", 1, 2⟩]) || false) ∧
    cleanup_index (fun _ => "h") .parseError false [⟨"/a", "h1", 1, 2⟩]
        "/x" [] = some ([], false) := by
  have h := C9_rebuild_condition_amended (fun _ => "h")
      (.loaded [⟨"/a", "h1", 1, 2⟩]) false [] "/x" []
  have h2 := C9_rebuild_condition_amended (fun _ => "h")
      .parseError false [⟨"/a", "h1", 1, 2⟩] "/x" []
  have hc : cleanup_index (fun _ => "h") (.loaded [⟨"/a", "h1", 1, 2⟩])
      false [] "/x" [] = some ([], true) := by
    simp [cleanup_index, load_db, update_db, recursive_hashes]
  exact ⟨hc, h.1 ([], true) hc, h2.2.2 rfl rfl⟩
